import Mathlib

/-!
# sshpass (Go port): prompt matcher, output relay and exit-code derivation

A shallow embedding of `src/main.go`:

* `matchString` (lines 21-34), the streaming prompt matcher;
* the output relay goroutine (lines 334-401), as a loop over the chunks that `ptmx.Read`
  returns, with the pseudo-terminal writes, the kill requests and the standard-output writes
  kept as event logs;
* the exit-code derivation after `cmd.Wait` (lines 410-422).

Go strings are byte sequences, so strings are lists of bytes here. Verbose diagnostics only
write to standard error and are left out of the relay state.
-/

namespace Sshpass

/-- One byte of a Go string. -/
abbrev Byte := UInt8

/-- The bytes of a Go string literal (Go source text is UTF-8). -/
def goBytes (s : String) : List Byte := s.toUTF8.data.toList

/-! ## matchString -/

/-- The loop of `matchString`. The Go loop variable `i` runs from `0` while
`i < len(buffer)`; the recursion is on the number `rem = len(buffer) - i` of bytes not yet
visited, so `rem = 0` is exactly the exit `i = len(buffer)` and the index is recovered as
`i = len(buffer) - rem`. Every index expression of the source (`reference[state]`,
`buffer[i]`, and `reference[state]` again after `state = 0`) is a checked lookup: a lookup
that fails is the Go run-time panic "index out of range" and yields `none`. -/
def matchLoop (reference buffer : List Byte) : Nat → Nat → Option Nat
  | 0, state => some state
  | rem + 1, state =>
    let i := buffer.length - (rem + 1)
    if state < reference.length then
      match reference[state]?, buffer[i]? with
      | some r, some b =>
        if r = b then
          matchLoop reference buffer rem (state + 1)
        else
          match reference[0]? with
          | some r0 =>
            if r0 = b then matchLoop reference buffer rem (0 + 1)
            else matchLoop reference buffer rem 0
          | none => none
      | _, _ => none
    else
      some state

/-- The function `matchString(reference, buffer, state)` of `main.go`. The Go `state` is an
`int`; every caller passes `0` or an earlier result, so it is a natural number here. The result
is `none` when an index expression panics. -/
def matchString (reference buffer : List Byte) (state : Nat) : Option Nat :=
  matchLoop reference buffer buffer.length state

/-- Feeding a sequence of chunks through `matchString`, each call starting from the state the
previous call returned (`state = matchString(pattern, chunk, state)` once per chunk). -/
def feed (P : List Byte) : Nat → List (List Byte) → Option Nat
  | s, [] => some s
  | s, c :: cs =>
    match matchString P c s with
    | none => none
    | some s1 => feed P s1 cs

/-! ## The per-byte rule as the specification words it -/

/-- The per-byte rule of the specification (section 4.1): at a state `t < len(P)` and byte
`b`, the next state is `t + 1` if `P[t] = b`, otherwise `1` if `P[0] = b`, otherwise `0`;
a completed state is left unchanged. -/
def advanceByte (P : List Byte) (t : Nat) (b : Byte) : Nat :=
  if t < P.length then
    if P[t]? = some b then t + 1
    else if P[0]? = some b then 1
    else 0
  else t

/-- The contract `advance(state, chunk)` of the specification: the left fold of the per-byte
rule over the chunk. -/
def advance (P : List Byte) (state : Nat) (chunk : List Byte) : Nat :=
  chunk.foldl (advanceByte P) state

/-- The byte string `S` contains `P` as a contiguous substring. -/
def occursIn (P S : List Byte) : Prop := ∃ u v, S = u ++ P ++ v

/-- The pattern is non-empty and its first byte occurs at no other position of it. -/
def FirstByteUnique (P : List Byte) : Prop := ∃ b t, P = b :: t ∧ b ∉ t

/-- The matcher invariant: either the first `t` pattern bytes end the input consumed so far,
or the whole pattern has been seen somewhere in it. -/
def MatchInv (P : List Byte) (t : Nat) (c : List Byte) : Prop :=
  t ≤ P.length ∧ ∃ u w, c = u ++ P.take t ++ w ∧ (t < P.length → w = [])

/-! ## The output relay -/

/-- The fixed host-identity pattern of line 388. -/
def hostPrompt : List Byte := goBytes "The authenticity of host "

/-- The variables of the output relay goroutine (`passwordState`, `hostAuthState`,
`prevmatch`, `terminate`, lines 328-332) together with the logs of its effects: the chunks
returned by `ptmx.Read`, the arguments of `ptmx.Write`, the number of `cmd.Process.Kill`
calls and the arguments of `os.Stdout.Write`. -/
structure Relay where
  passwordState : Nat
  hostAuthState : Nat
  prevmatch : Bool
  terminate : Bool
  ptyReads : List (List Byte)
  ptyWrites : List (List Byte)
  kills : Nat
  stdoutWrites : List (List Byte)
deriving DecidableEq

/-- How a loop body ends: it falls through to the next iteration or executes `break`. -/
inductive LoopCtl where
  | next
  | brk
deriving DecidableEq

/-- The relay variables as declared before the goroutine starts. -/
def Relay.init : Relay :=
  { passwordState := 0, hostAuthState := 0, prevmatch := false, terminate := false,
    ptyReads := [], ptyWrites := [], kills := 0, stdoutWrites := [] }

/-- Lines 364-385: advance the password matcher with the chunk; on completion either send
the password (first time) or request termination (second time). -/
def passwordBranch (prompt password : List Byte) (st : Relay) (buffer : List Byte) :
    Option (LoopCtl × Relay) :=
  match matchString prompt buffer st.passwordState with
  | none => none
  | some ps =>
    let st := { st with passwordState := ps }
    if st.passwordState = prompt.length then
      if !st.prevmatch then
        some (LoopCtl.next, { st with
          ptyWrites := st.ptyWrites ++ [password ++ goBytes "\n"],
          passwordState := 0,
          prevmatch := true })
      else
        some (LoopCtl.brk, { st with terminate := true, kills := st.kills + 1 })
    else
      some (LoopCtl.next, st)

/-- Lines 387-399: advance the host-identity matcher with the same chunk; on completion
request termination, otherwise write the chunk to standard output. -/
def hostBranch (st : Relay) (buffer : List Byte) : Option (LoopCtl × Relay) :=
  match matchString hostPrompt buffer st.hostAuthState with
  | none => none
  | some hs =>
    let st := { st with hostAuthState := hs }
    if st.hostAuthState = hostPrompt.length then
      some (LoopCtl.brk, { st with terminate := true, kills := st.kills + 1 })
    else
      some (LoopCtl.next, { st with stdoutWrites := st.stdoutWrites ++ [buffer] })

/-- One iteration of the relay loop on a chunk `buffer` that `ptmx.Read` returned
(lines 352-399). -/
def relayBody (prompt password : List Byte) (st : Relay) (buffer : List Byte) :
    Option (LoopCtl × Relay) :=
  match passwordBranch prompt password { st with ptyReads := st.ptyReads ++ [buffer] } buffer with
  | none => none
  | some (LoopCtl.brk, st) => some (LoopCtl.brk, st)
  | some (LoopCtl.next, st) => hostBranch st buffer

/-- The relay loop `for !terminate` (lines 336-400) over the chunks the successive reads
return. A read that times out changes nothing and is not listed; the end of the list is the
read error (end of stream) on which the loop breaks. The loop test `!terminate` and the
break on a read error both leave with the variables as they are, so the two exits are one
case each here. The result is `none` when an iteration panics. -/
def relayLoop (prompt password : List Byte) : Relay → List (List Byte) → Option Relay
  | st, [] => some st
  | st, buffer :: rest =>
    if st.terminate then some st
    else
      match relayBody prompt password st buffer with
      | none => none
      | some (LoopCtl.brk, st) => some st
      | some (LoopCtl.next, st) => relayLoop prompt password st rest

/-! ## Exit-code derivation -/

/-- How the child ended, as the operating system reports it to `cmd.Wait`: a normal exit
with a code, termination by a signal, or a failure of the wait itself. -/
inductive WaitResult where
  | exited (code : Nat)
  | signaled (sig : Nat)
  | waitFailed
deriving DecidableEq

/-- The non-nil errors of `cmd.Wait`: an `*exec.ExitError`, which carries the wait status of
a child that did not complete successfully, or any other error. -/
inductive WaitError where
  | exitError (status : WaitResult)
  | other
deriving DecidableEq

/-- The library call `cmd.Wait()` (Go `os/exec`): `nil` for a child that exited with code 0,
an `*exec.ExitError` for a child that exited with another code or was ended by a signal. -/
def cmdWait : WaitResult → Option WaitError
  | WaitResult.exited 0 => none
  | WaitResult.exited (n + 1) => some (WaitError.exitError (WaitResult.exited (n + 1)))
  | WaitResult.signaled sig => some (WaitError.exitError (WaitResult.signaled sig))
  | WaitResult.waitFailed => some WaitError.other

/-- The library method `syscall.WaitStatus.ExitStatus()`: the exit code of a child that
exited, and `-1` for one that did not exit. -/
def ExitStatus : WaitResult → Int
  | WaitResult.exited code => code
  | _ => -1

/-- Lines 410-422: the argument `main` passes to `os.Exit` once `cmd.Wait` has returned
(`0` when `main` simply returns). On Unix the assertion `exitErr.Sys().(syscall.WaitStatus)`
always succeeds. -/
def exitCode (w : WaitResult) : Int :=
  match cmdWait w with
  | none => 0
  | some (WaitError.exitError status) => ExitStatus status
  | some WaitError.other => 1

/-- The exit status the parent of the process observes for `os.Exit(code)`: the low eight
bits of the code. -/
def observedStatus (code : Int) : Nat := (code % 256).toNat

/-- The signal number of `SIGKILL`, which `cmd.Process.Kill` sends. -/
def SIGKILL : Nat := 9

/-! ## The matcher computes the fold of the per-byte rule -/
theorem advance_nil (P : List Byte) (s : Nat) : advance P s [] = s := rfl

theorem advance_cons (P : List Byte) (s : Nat) (b : Byte) (bs : List Byte) :
    advance P s (b :: bs) = advance P (advanceByte P s b) bs := rfl

theorem advance_append (P : List Byte) (s : Nat) (a b : List Byte) :
    advance P s (a ++ b) = advance P (advance P s a) b := by
  simp [advance, List.foldl_append]

theorem advanceByte_done (P : List Byte) (s : Nat) (b : Byte) (h : P.length ≤ s) :
    advanceByte P s b = s := by
  simp [advanceByte, Nat.not_lt.mpr h]

theorem advance_done (P : List Byte) (s : Nat) (buf : List Byte) (h : P.length ≤ s) :
    advance P s buf = s := by
  induction buf with
  | nil => rfl
  | cons b bs ih => rw [advance_cons, advanceByte_done P s b h, ih]

theorem advanceByte_le (P : List Byte) (s : Nat) (b : Byte) (h : s ≤ P.length) :
    advanceByte P s b ≤ P.length := by
  unfold advanceByte
  split_ifs <;> omega

theorem advance_le (P : List Byte) (buf : List Byte) :
    ∀ s, s ≤ P.length → advance P s buf ≤ P.length := by
  induction buf with
  | nil => intro s h; exact h
  | cons b bs ih => intro s h; rw [advance_cons]; exact ih _ (advanceByte_le P s b h)

theorem matchLoop_eq (P buf : List Byte) :
    ∀ rem s, rem ≤ buf.length →
      matchLoop P buf rem s = some (advance P s (buf.drop (buf.length - rem))) := by
  intro rem
  induction rem with
  | zero =>
    intro s _
    simp [matchLoop, advance_nil]
  | succ n ih =>
    intro s h
    have hi : buf.length - (n + 1) < buf.length := by omega
    rw [matchLoop]
    by_cases hs : s < P.length
    · have hd : buf.drop (buf.length - (n + 1))
          = buf[buf.length - (n + 1)] :: buf.drop (buf.length - (n + 1) + 1) :=
        (List.getElem_cons_drop _ _ hi).symm
      have h0 : 0 < P.length := by omega
      have hn : buf.length - (n + 1) + 1 = buf.length - n := by omega
      simp only [if_pos hs]
      rw [hd, advance_cons, List.getElem?_eq_getElem hs, List.getElem?_eq_getElem hi,
        List.getElem?_eq_getElem h0, hn]
      simp only [advanceByte, if_pos hs, List.getElem?_eq_getElem hs, List.getElem?_eq_getElem h0,
        Option.some.injEq]
      by_cases h1 : P[s] = buf[buf.length - (n + 1)]
      · simp only [if_pos h1]; exact ih _ (by omega)
      · simp only [if_neg h1]
        by_cases h2 : P[0] = buf[buf.length - (n + 1)]
        · simp only [if_pos h2]; exact ih _ (by omega)
        · simp only [if_neg h2]; exact ih _ (by omega)
    · simp only [if_neg hs]
      rw [advance_done P s _ (by omega)]

theorem matchString_eq (P buf : List Byte) (s : Nat) :
    matchString P buf s = some (advance P s buf) := by
  rw [matchString, matchLoop_eq P buf _ s (le_refl _), Nat.sub_self, List.drop_zero]

/-! ## Completeness and soundness of the matcher -/

theorem advance_drop (P : List Byte) :
    ∀ n j, P.length - j = n → j ≤ P.length → advance P j (P.drop j) = P.length := by
  intro n
  induction n with
  | zero =>
    intro j h hj
    have : j = P.length := by omega
    subst this
    simp [advance_nil]
  | succ n ih =>
    intro j h hj
    have hlt : j < P.length := by omega
    rw [← List.getElem_cons_drop _ _ hlt, advance_cons]
    have : advanceByte P j P[j] = j + 1 := by
      simp [advanceByte, hlt, List.getElem?_eq_getElem hlt]
    rw [this]
    exact ih (j + 1) (by omega) (by omega)

theorem advanceByte_first (b : Byte) (t : List Byte) (hb : b ∉ t) (s : Nat)
    (hs : s < (b :: t).length) : advanceByte (b :: t) s b = 1 := by
  unfold advanceByte
  rw [if_pos hs]
  cases s with
  | zero => simp
  | succ k =>
    have hk : k < t.length := by simpa using hs
    have hne : t[k] ≠ b := fun h => hb (h ▸ List.getElem_mem hk)
    simp [List.getElem?_eq_getElem hk, hne]

theorem advance_complete (P : List Byte) (hP : FirstByteUnique P) (s : Nat) (hs : s ≤ P.length)
    (v : List Byte) : advance P s (P ++ v) = P.length := by
  obtain ⟨b, t, rfl, hb⟩ := hP
  rw [advance_append]
  rcases Nat.lt_or_ge s (b :: t).length with hlt | hge
  · rw [advance_cons, advanceByte_first b t hb s hlt]
    have := advance_drop (b :: t) _ 1 rfl (by simp)
    simp only [List.drop_succ_cons, List.drop_zero] at this
    rw [this, advance_done _ _ _ (le_refl _)]
  · have : s = (b :: t).length := by omega
    subst this
    rw [advance_done _ _ _ (le_refl _), advance_done _ _ _ (le_refl _)]

theorem advance_of_occurs (P : List Byte) (hP : FirstByteUnique P) (s : Nat) (hs : s ≤ P.length)
    (S : List Byte) (h : occursIn P S) : advance P s S = P.length := by
  obtain ⟨u, v, rfl⟩ := h
  rw [List.append_assoc, advance_append]
  exact advance_complete P hP _ (advance_le P u s hs) v

theorem matchInv_step (P : List Byte) (t : Nat) (c : List Byte) (b : Byte)
    (h : MatchInv P t c) : MatchInv P (advanceByte P t b) (c ++ [b]) := by
  obtain ⟨hle, u, w, hc, hw⟩ := h
  unfold advanceByte
  by_cases hlt : t < P.length
  · have hw0 := hw hlt
    subst hw0
    rw [if_pos hlt]
    by_cases h1 : P[t]? = some b
    · rw [if_pos h1]
      refine ⟨by omega, u, [], ?_, fun _ => rfl⟩
      rw [List.getElem?_eq_getElem hlt] at h1
      have hb : P[t] = b := by simpa using h1
      rw [hc, ← hb, List.take_succ, List.getElem?_eq_getElem hlt]
      simp
    · rw [if_neg h1]
      by_cases h2 : P[0]? = some b
      · rw [if_pos h2]
        refine ⟨by omega, c, [], ?_, fun _ => rfl⟩
        cases P with
        | nil => simp at h2
        | cons p ps =>
          have : p = b := by simpa using h2
          simp [this]
      · rw [if_neg h2]
        exact ⟨by omega, c ++ [b], [], by simp, fun _ => rfl⟩
  · rw [if_neg hlt]
    exact ⟨hle, u, w ++ [b], by rw [hc]; simp, fun h => absurd h hlt⟩

theorem matchInv_advance (P : List Byte) (S : List Byte) :
    ∀ t c, MatchInv P t c → MatchInv P (advance P t S) (c ++ S) := by
  induction S with
  | nil => intro t c h; simpa [advance_nil] using h
  | cons b bs ih =>
    intro t c h
    have := ih _ _ (matchInv_step P t c b h)
    rw [advance_cons]
    simpa using this

theorem occurs_of_advance (P S : List Byte) (h : advance P 0 S = P.length) : occursIn P S := by
  have h0 : MatchInv P 0 [] := ⟨Nat.zero_le _, [], [], by simp, fun _ => rfl⟩
  obtain ⟨_, u, w, hc, _⟩ := matchInv_advance P S 0 [] h0
  rw [h, List.take_length] at hc
  exact ⟨u, w, by simpa using hc⟩

/-! ## The relay loop -/

theorem relayBody_eq (P pw : List Byte) (st : Relay) (buf : List Byte) :
    relayBody P pw st buf = some (
      if advance P st.passwordState buf = P.length then
        if st.prevmatch = true then
          (LoopCtl.brk, { st with
            ptyReads := st.ptyReads ++ [buf],
            passwordState := advance P st.passwordState buf,
            terminate := true,
            kills := st.kills + 1 })
        else if advance hostPrompt st.hostAuthState buf = hostPrompt.length then
          (LoopCtl.brk, { st with
            ptyReads := st.ptyReads ++ [buf],
            ptyWrites := st.ptyWrites ++ [pw ++ goBytes "\n"],
            passwordState := 0,
            prevmatch := true,
            hostAuthState := advance hostPrompt st.hostAuthState buf,
            terminate := true,
            kills := st.kills + 1 })
        else
          (LoopCtl.next, { st with
            ptyReads := st.ptyReads ++ [buf],
            ptyWrites := st.ptyWrites ++ [pw ++ goBytes "\n"],
            passwordState := 0,
            prevmatch := true,
            hostAuthState := advance hostPrompt st.hostAuthState buf,
            stdoutWrites := st.stdoutWrites ++ [buf] })
      else if advance hostPrompt st.hostAuthState buf = hostPrompt.length then
        (LoopCtl.brk, { st with
          ptyReads := st.ptyReads ++ [buf],
          passwordState := advance P st.passwordState buf,
          hostAuthState := advance hostPrompt st.hostAuthState buf,
          terminate := true,
          kills := st.kills + 1 })
      else
        (LoopCtl.next, { st with
          ptyReads := st.ptyReads ++ [buf],
          passwordState := advance P st.passwordState buf,
          hostAuthState := advance hostPrompt st.hostAuthState buf,
          stdoutWrites := st.stdoutWrites ++ [buf] })) := by
  simp only [relayBody, passwordBranch, hostBranch, matchString_eq]
  by_cases h1 : advance P st.passwordState buf = P.length
  · cases hp : st.prevmatch
    · by_cases h2 : advance hostPrompt st.hostAuthState buf = hostPrompt.length <;>
        simp [h1, hp, h2]
    · simp [h1, hp]
  · by_cases h2 : advance hostPrompt st.hostAuthState buf = hostPrompt.length <;>
      simp [h1, h2]

theorem relayLoop_nil (P pw : List Byte) (st : Relay) : relayLoop P pw st [] = some st := rfl

theorem relayLoop_terminated (P pw : List Byte) (st : Relay) (cs : List (List Byte))
    (h : st.terminate = true) : relayLoop P pw st cs = some st := by
  cases cs with
  | nil => rfl
  | cons c cs => simp [relayLoop, h]

theorem relayLoop_cons (P pw : List Byte) (st : Relay) (c : List Byte) (cs : List (List Byte))
    (h : st.terminate = false) :
    relayLoop P pw st (c :: cs) =
      match relayBody P pw st c with
      | none => none
      | some (LoopCtl.brk, st1) => some st1
      | some (LoopCtl.next, st1) => relayLoop P pw st1 cs := by
  simp [relayLoop, h]

theorem relayLoop_inv (P pw : List Byte) (I : Relay → Prop)
    (hI : ∀ st buf f st1, I st → relayBody P pw st buf = some (f, st1) → I st1) :
    ∀ cs st, I st → ∃ st1, relayLoop P pw st cs = some st1 ∧ I st1 := by
  intro cs
  induction cs with
  | nil => intro st h; exact ⟨st, rfl, h⟩
  | cons c cs ih =>
    intro st h
    cases ht : st.terminate
    · rw [relayLoop_cons P pw st c cs ht]
      obtain ⟨⟨f, st1⟩, hb⟩ : ∃ r, relayBody P pw st c = some r := ⟨_, relayBody_eq P pw st c⟩
      have h1 := hI st c f st1 h hb
      rw [hb]
      cases f with
      | next => exact ih st1 h1
      | brk => exact ⟨st1, rfl, h1⟩
    · exact ⟨st, relayLoop_terminated P pw st _ ht, h⟩

theorem advance_lt_of_lt (P : List Byte) (s : Nat) (buf : List Byte)
    (h : advance P s buf < P.length) : s < P.length := by
  by_contra hn
  rw [advance_done P s buf (by omega)] at h
  exact hn h

theorem relayBody_total (P pw : List Byte) (st : Relay) (c : List Byte) :
    ∃ f st1, relayBody P pw st c = some (f, st1) :=
  ⟨_, _, relayBody_eq P pw st c⟩

theorem relayBody_next (P pw : List Byte) (st st1 : Relay) (c : List Byte)
    (hb : relayBody P pw st c = some (LoopCtl.next, st1)) :
    st1.terminate = st.terminate ∧ st1.kills = st.kills ∧
    st1.hostAuthState = advance hostPrompt st.hostAuthState c ∧
    st1.hostAuthState ≠ hostPrompt.length ∧
    st1.ptyReads = st.ptyReads ++ [c] ∧ st1.stdoutWrites = st.stdoutWrites ++ [c] ∧
    ((advance P st.passwordState c = P.length ∧ st.prevmatch = false ∧ st1.passwordState = 0 ∧
        st1.prevmatch = true ∧ st1.ptyWrites = st.ptyWrites ++ [pw ++ goBytes "\n"]) ∨
      (advance P st.passwordState c ≠ P.length ∧
        st1.passwordState = advance P st.passwordState c ∧
        st1.prevmatch = st.prevmatch ∧ st1.ptyWrites = st.ptyWrites)) := by
  rw [relayBody_eq] at hb
  split_ifs at hb with h1 h2 h3 h4 <;>
    simp only [Option.some.injEq, Prod.mk.injEq, true_and, false_and, reduceCtorEq] at hb
  · subst hb
    simp_all
  · subst hb
    simp_all

theorem relayBody_brk (P pw : List Byte) (st st1 : Relay) (c : List Byte)
    (hb : relayBody P pw st c = some (LoopCtl.brk, st1)) :
    st1.terminate = true ∧ st1.kills = st.kills + 1 ∧
    st1.ptyReads = st.ptyReads ++ [c] ∧ st1.stdoutWrites = st.stdoutWrites ∧
    ((advance P st.passwordState c = P.length ∧ st.prevmatch = true ∧
        st1.passwordState = P.length ∧ st1.prevmatch = true ∧
        st1.hostAuthState = st.hostAuthState ∧ st1.ptyWrites = st.ptyWrites) ∨
      (advance hostPrompt st.hostAuthState c = hostPrompt.length ∧
        st1.hostAuthState = hostPrompt.length ∧
        ((advance P st.passwordState c = P.length ∧ st.prevmatch = false ∧
            st1.ptyWrites = st.ptyWrites ++ [pw ++ goBytes "\n"] ∧ st1.prevmatch = true) ∨
          (advance P st.passwordState c ≠ P.length ∧ st1.ptyWrites = st.ptyWrites ∧
            st1.prevmatch = st.prevmatch)))) := by
  rw [relayBody_eq] at hb
  split_ifs at hb with h1 h2 h3 h4 <;>
    simp only [Option.some.injEq, Prod.mk.injEq, true_and, false_and, reduceCtorEq] at hb
  · subst hb
    simp_all
  · subst hb
    simp_all
  · subst hb
    simp_all

theorem relayLoop_next (P pw : List Byte) (st st1 : Relay) (c : List Byte)
    (cs : List (List Byte)) (ht : st.terminate = false)
    (hb : relayBody P pw st c = some (LoopCtl.next, st1)) :
    relayLoop P pw st (c :: cs) = relayLoop P pw st1 cs := by
  rw [relayLoop_cons P pw st c cs ht, hb]

theorem relayLoop_brk (P pw : List Byte) (st st1 : Relay) (c : List Byte)
    (cs : List (List Byte)) (ht : st.terminate = false)
    (hb : relayBody P pw st c = some (LoopCtl.brk, st1)) :
    relayLoop P pw st (c :: cs) = some st1 := by
  rw [relayLoop_cons P pw st c cs ht, hb]

theorem relayLoop_host (P pw : List Byte) :
    ∀ (A : List (List Byte)) (st : Relay), st.terminate = false →
      st.hostAuthState < hostPrompt.length →
      advance hostPrompt st.hostAuthState A.flatten = hostPrompt.length →
      ∀ B, ∃ st1, relayLoop P pw st (A ++ B) = some st1 ∧ relayLoop P pw st A = some st1 ∧
        st1.terminate = true ∧ st1.kills = st.kills + 1 := by
  intro A
  induction A with
  | nil =>
    intro st _ hlt hadv
    simp [advance_nil] at hadv
    omega
  | cons c A ih =>
    intro st ht hlt hadv B
    rw [List.flatten_cons, advance_append] at hadv
    obtain ⟨f, st1, hb⟩ := relayBody_total P pw st c
    cases f with
    | brk =>
      obtain ⟨h1, h2, _⟩ := relayBody_brk P pw st st1 c hb
      exact ⟨st1, relayLoop_brk P pw st st1 c _ ht hb, relayLoop_brk P pw st st1 c _ ht hb,
        h1, h2⟩
    | next =>
      obtain ⟨h1, h2, h3, h4, _⟩ := relayBody_next P pw st st1 c hb
      have hle := advance_le hostPrompt c st.hostAuthState (le_of_lt hlt)
      rw [← h3] at hadv hle
      obtain ⟨st2, e1, e2, e3, e4⟩ :=
        ih st1 (h1.trans ht) (lt_of_le_of_ne hle h4) hadv B
      refine ⟨st2, ?_, ?_, e3, by omega⟩
      · rw [List.cons_append, relayLoop_next P pw st st1 c _ ht hb]; exact e1
      · rw [relayLoop_next P pw st st1 c _ ht hb]; exact e2

theorem relayLoop_reads (P pw : List Byte) :
    ∀ (cs : List (List Byte)) (st st1 : Relay), relayLoop P pw st cs = some st1 →
      ∃ k, k ≤ cs.length ∧ st1.ptyReads = st.ptyReads ++ cs.take k := by
  intro cs
  induction cs with
  | nil =>
    intro st st1 h
    rw [relayLoop_nil] at h
    cases h
    exact ⟨0, le_refl _, by simp⟩
  | cons c cs ih =>
    intro st st1 h
    cases ht : st.terminate
    · obtain ⟨f, st2, hb⟩ := relayBody_total P pw st c
      cases f with
      | brk =>
        rw [relayLoop_brk P pw st st2 c _ ht hb] at h
        cases h
        obtain ⟨_, _, h3, _⟩ := relayBody_brk P pw st _ c hb
        exact ⟨1, by simp, by simpa using h3⟩
      | next =>
        rw [relayLoop_next P pw st st2 c _ ht hb] at h
        obtain ⟨_, _, _, _, h5, _⟩ := relayBody_next P pw st st2 c hb
        obtain ⟨k, hk, hr⟩ := ih st2 st1 h
        exact ⟨k + 1, by simpa using hk, by rw [hr, h5]; simp⟩
    · rw [relayLoop_terminated P pw st _ ht] at h
      cases h
      exact ⟨0, Nat.zero_le _, by simp⟩

theorem relayLoop_wrong_password (P pw : List Byte) :
    ∀ (cs : List (List Byte)) (st : Relay), st.terminate = false → st.prevmatch = true →
      st.passwordState < P.length →
      advance P st.passwordState cs.flatten = P.length →
      advance hostPrompt st.hostAuthState cs.flatten < hostPrompt.length →
      ∃ st1, relayLoop P pw st cs = some st1 ∧ st1.terminate = true ∧
        st1.kills = st.kills + 1 ∧ st1.ptyWrites = st.ptyWrites ∧
        st1.hostAuthState < hostPrompt.length ∧ st1.passwordState = P.length ∧
        st1.prevmatch = true := by
  intro cs
  induction cs with
  | nil =>
    intro st _ _ hlt hadv _
    simp [advance_nil] at hadv
    omega
  | cons c cs ih =>
    intro st ht hp hlt hadv hhost
    rw [List.flatten_cons, advance_append] at hadv hhost
    have hh1 := advance_lt_of_lt _ _ _ hhost
    have hh0 := advance_lt_of_lt _ _ _ hh1
    obtain ⟨f, st1, hb⟩ := relayBody_total P pw st c
    cases f with
    | brk =>
      obtain ⟨h1, h2, _, _, h5⟩ := relayBody_brk P pw st st1 c hb
      rcases h5 with ⟨_, _, a3, a4, a5, a6⟩ | ⟨b1, _⟩
      · exact ⟨st1, relayLoop_brk P pw st st1 c _ ht hb, h1, h2, a6, by omega, a3, a4⟩
      · omega
    | next =>
      obtain ⟨h1, h2, h3, h4, _, _, h7⟩ := relayBody_next P pw st st1 c hb
      rcases h7 with ⟨_, a2, _⟩ | ⟨b1, b2, b3, b4⟩
      · rw [hp] at a2; cases a2
      · have hle := advance_le P c st.passwordState (le_of_lt hlt)
        rw [← b2] at hadv hle b1
        rw [← h3] at hhost
        obtain ⟨st2, e1, e2, e3, e4, e5, e6, e7⟩ :=
          ih st1 (h1.trans ht) (b3.trans hp) (lt_of_le_of_ne hle b1) hadv hhost
        refine ⟨st2, ?_, e2, by omega, e4.trans b4, e5, e6, e7⟩
        rw [relayLoop_next P pw st st1 c _ ht hb]; exact e1

theorem relayLoop_second_prompt (P pw : List Byte) (B : List (List Byte))
    (hB : ∀ X, advance P 0 (X ++ B.flatten) = P.length) :
    ∀ (A : List (List Byte)) (st : Relay), st.terminate = false → st.prevmatch = false →
      st.passwordState < P.length →
      advance P st.passwordState A.flatten = P.length →
      advance hostPrompt st.hostAuthState (A ++ B).flatten < hostPrompt.length →
      ∃ st1, relayLoop P pw st (A ++ B) = some st1 ∧ st1.terminate = true ∧
        st1.kills = st.kills + 1 ∧ st1.ptyWrites = st.ptyWrites ++ [pw ++ goBytes "\n"] ∧
        st1.hostAuthState < hostPrompt.length ∧ st1.passwordState = P.length ∧
        st1.prevmatch = true := by
  intro A
  induction A with
  | nil =>
    intro st _ _ hlt hadv _
    simp [advance_nil] at hadv
    omega
  | cons c A ih =>
    intro st ht hp hlt hadv hhost
    rw [List.cons_append, List.flatten_cons, advance_append] at hhost
    rw [List.flatten_cons, advance_append] at hadv
    have hh1 := advance_lt_of_lt _ _ _ hhost
    obtain ⟨f, st1, hb⟩ := relayBody_total P pw st c
    cases f with
    | brk =>
      obtain ⟨_, _, _, _, h5⟩ := relayBody_brk P pw st st1 c hb
      rcases h5 with ⟨_, a2, _⟩ | ⟨b1, _⟩
      · rw [hp] at a2; cases a2
      · omega
    | next =>
      obtain ⟨h1, h2, h3, h4, _, _, h7⟩ := relayBody_next P pw st st1 c hb
      rw [← h3] at hhost
      rw [List.cons_append, relayLoop_next P pw st st1 c _ ht hb]
      rcases h7 with ⟨_, _, a3, a4, a5⟩ | ⟨b1, b2, b3, b4⟩
      · have h0 := hB A.flatten
        rw [← List.flatten_append, ← a3] at h0
        obtain ⟨st2, e1, e2, e3, e4, e5, e6, e7⟩ :=
          relayLoop_wrong_password P pw (A ++ B) st1 (h1.trans ht) a4 (by omega) h0 hhost
        exact ⟨st2, e1, e2, by omega, by rw [e4, a5], e5, e6, e7⟩
      · have hle := advance_le P c st.passwordState (le_of_lt hlt)
        rw [← b2] at hadv hle b1
        obtain ⟨st2, e1, e2, e3, e4, e5, e6, e7⟩ :=
          ih st1 (h1.trans ht) (b3.trans hp) (lt_of_le_of_ne hle b1) hadv hhost
        exact ⟨st2, e1, e2, by omega, by rw [e4, b4], e5, e6, e7⟩

theorem feed_eq (P : List Byte) :
    ∀ (cs : List (List Byte)) (s : Nat), feed P s cs = some (advance P s cs.flatten) := by
  intro cs
  induction cs with
  | nil => intro s; rfl
  | cons c cs ih =>
    intro s
    simp only [feed, matchString_eq, List.flatten_cons, advance_append]
    exact ih _

theorem not_occurs_of_advance (P S : List Byte) (hP : FirstByteUnique P)
    (h : advance P 0 S ≠ P.length) : ¬ occursIn P S :=
  fun ho => h (advance_of_occurs P hP 0 (Nat.zero_le _) S ho)

theorem firstByteUnique_password : FirstByteUnique (goBytes "password") :=
  ⟨112, goBytes "assword", by decide, by decide⟩

theorem firstByteUnique_hostPrompt : FirstByteUnique hostPrompt :=
  ⟨84, goBytes "he authenticity of host ", by decide, by decide⟩

theorem relayBody_range (P pw : List Byte) (st st1 : Relay) (c : List Byte) (f : LoopCtl)
    (hb : relayBody P pw st c = some (f, st1)) (h1 : st.passwordState ≤ P.length)
    (h2 : st.hostAuthState ≤ hostPrompt.length) :
    st1.passwordState ≤ P.length ∧ st1.hostAuthState ≤ hostPrompt.length := by
  have hp := advance_le P c _ h1
  have hh := advance_le hostPrompt c _ h2
  rw [relayBody_eq] at hb
  split_ifs at hb <;>
    (simp only [Option.some.injEq, Prod.mk.injEq] at hb
     obtain ⟨_, rfl⟩ := hb
     exact ⟨by first | exact hp | exact Nat.zero_le _, by first | exact hh | exact h2⟩)

/-! ## The claims -/

/-- C1: for every prompt pattern, every secret and every finite sequence of chunks, the relay
loop started from its initial variables returns, and its log of pseudo-terminal writes is
either empty or the single write of the secret followed by a line feed. -/
theorem relay_writes_secret_at_most_once (prompt secret : List Byte)
    (chunks : List (List Byte)) :
    ∃ st, relayLoop prompt secret Relay.init chunks = some st ∧
      (st.ptyWrites = [] ∨ st.ptyWrites = [secret ++ goBytes "\n"]) := by
  obtain ⟨st, hst, hI⟩ := relayLoop_inv prompt secret
    (fun st => (st.prevmatch = false ∧ st.ptyWrites = []) ∨
      (st.prevmatch = true ∧ st.ptyWrites = [secret ++ goBytes "\n"]))
    (by
      intro st buf f st1 hI hb
      cases f with
      | next =>
        obtain ⟨_, _, _, _, _, _, h7⟩ := relayBody_next prompt secret st st1 buf hb
        rcases h7 with ⟨_, a2, _, a4, a5⟩ | ⟨_, _, b3, b4⟩
        · rcases hI with ⟨_, hw⟩ | ⟨hp, _⟩
          · right; exact ⟨a4, by rw [a5, hw]; rfl⟩
          · rw [hp] at a2; cases a2
        · rw [b3, b4]; exact hI
      | brk =>
        obtain ⟨_, _, _, _, h5⟩ := relayBody_brk prompt secret st st1 buf hb
        rcases h5 with ⟨_, a2, _, a4, _, a6⟩ | ⟨_, _, ⟨_, c2, c3, c4⟩ | ⟨_, d2, d3⟩⟩
        · rcases hI with ⟨hp, _⟩ | ⟨_, hw⟩
          · rw [hp] at a2; cases a2
          · right; exact ⟨a4, by rw [a6, hw]⟩
        · rcases hI with ⟨_, hw⟩ | ⟨hp, _⟩
          · right; exact ⟨c4, by rw [c3, hw]; rfl⟩
          · rw [hp] at c2; cases c2
        · rw [d2, d3]; exact hI)
    chunks Relay.init (Or.inl ⟨rfl, rfl⟩)
  refine ⟨st, hst, ?_⟩
  rcases hI with ⟨_, hw⟩ | ⟨_, hw⟩
  · exact Or.inl hw
  · exact Or.inr hw

/-- C2, as stated, fails. With pattern "password" and the stream "password: password: " read
as one chunk, the stream holds the pattern twice without overlap and does not hold the
host-identity pattern, yet the relay ends with the termination flag clear and no kill request:
the matcher stops scanning the chunk at the first completion. With pattern "aab" and the two
chunks "aaab", "aaab" the pattern again occurs twice and the relay never even completes a
match. -/
theorem relay_second_prompt_missed :
    (goBytes "password: password: "
        = [] ++ goBytes "password" ++ goBytes ": " ++ goBytes "password" ++ goBytes ": " ∧
      ¬ occursIn hostPrompt (goBytes "password: password: ") ∧
      relayLoop (goBytes "password") (goBytes "hunter2") Relay.init
          [goBytes "password: password: "]
        = some ⟨0, 0, true, false, [goBytes "password: password: "], [goBytes "hunter2\n"], 0,
            [goBytes "password: password: "]⟩) ∧
    ([goBytes "aaab", goBytes "aaab"].flatten
        = goBytes "a" ++ goBytes "aab" ++ goBytes "a" ++ goBytes "aab" ++ [] ∧
      ¬ occursIn hostPrompt [goBytes "aaab", goBytes "aaab"].flatten ∧
      relayLoop (goBytes "aab") (goBytes "hunter2") Relay.init [goBytes "aaab", goBytes "aaab"]
        = some ⟨0, 0, false, false, [goBytes "aaab", goBytes "aaab"], [], 0,
            [goBytes "aaab", goBytes "aaab"]⟩) :=
  ⟨⟨by decide, not_occurs_of_advance _ _ firstByteUnique_hostPrompt (by decide), by decide⟩,
    ⟨by decide, not_occurs_of_advance _ _ firstByteUnique_hostPrompt (by decide), by decide⟩⟩

/-- C2, amended: for every non-empty pattern whose first byte occurs at no other position of
it, and every sequence of chunks whose concatenation does not contain the host-identity
pattern, if the sequence can be cut between two chunks so that the chunks before the cut
contain the pattern and the chunks after the cut contain it too, then the relay ends in
wrong-password termination: it returns with the termination flag set, exactly one kill request
sent, the secret written once, the password matcher complete with the secret already sent, and
the host-identity matcher not complete. -/
theorem relay_wrong_password_terminates (P secret : List Byte) (A B : List (List Byte))
    (hP : FirstByteUnique P) (hA : occursIn P A.flatten) (hB : occursIn P B.flatten)
    (hH : ¬ occursIn hostPrompt (A ++ B).flatten) :
    ∃ st, relayLoop P secret Relay.init (A ++ B) = some st ∧
      st.terminate = true ∧ st.kills = 1 ∧ st.ptyWrites = [secret ++ goBytes "\n"] ∧
      st.passwordState = P.length ∧ st.prevmatch = true ∧
      st.hostAuthState < hostPrompt.length := by
  have hpos : 0 < P.length := by
    obtain ⟨b, t, rfl, _⟩ := hP
    simp
  have hhost : advance hostPrompt 0 (A ++ B).flatten < hostPrompt.length := by
    refine lt_of_le_of_ne (advance_le _ _ 0 (Nat.zero_le _)) ?_
    intro h
    exact hH (occurs_of_advance _ _ h)
  obtain ⟨st, e1, e2, e3, e4, e5, e6, e7⟩ :=
    relayLoop_second_prompt P secret B
      (fun X => advance_of_occurs P hP 0 (Nat.zero_le _) _
        (by
          obtain ⟨u, v, huv⟩ := hB
          exact ⟨X ++ u, v, by rw [huv]; simp⟩))
      A Relay.init rfl rfl hpos (advance_of_occurs P hP 0 (Nat.zero_le _) _ hA) hhost
  exact ⟨st, e1, e2, by simpa [Relay.init] using e3, by simpa [Relay.init] using e4, e6, e7, e5⟩

/-- Witness for C2 amended: pattern "password", the chunks "password: " and "password: ". -/
theorem relay_wrong_password_terminates_witness :
    FirstByteUnique (goBytes "password") ∧
    occursIn (goBytes "password") [goBytes "password: "].flatten ∧
    ¬ occursIn hostPrompt ([goBytes "password: "] ++ [goBytes "password: "]).flatten ∧
    ∃ st, relayLoop (goBytes "password") (goBytes "hunter2") Relay.init
        ([goBytes "password: "] ++ [goBytes "password: "]) = some st ∧
      st.terminate = true ∧ st.kills = 1 ∧ st.ptyWrites = [goBytes "hunter2" ++ goBytes "\n"] ∧
      st.passwordState = (goBytes "password").length ∧ st.prevmatch = true ∧
      st.hostAuthState < hostPrompt.length :=
  ⟨⟨112, goBytes "assword", by decide, by decide⟩,
    ⟨[], goBytes ": ", by decide⟩,
    not_occurs_of_advance _ _ firstByteUnique_hostPrompt (by decide),
    relay_wrong_password_terminates (goBytes "password") (goBytes "hunter2")
      [goBytes "password: "] [goBytes "password: "]
      ⟨112, goBytes "assword", by decide, by decide⟩
      ⟨[], goBytes ": ", by decide⟩ ⟨[], goBytes ": ", by decide⟩
      (not_occurs_of_advance _ _ firstByteUnique_hostPrompt (by decide))⟩

/-- C3: for every prompt pattern, every secret and every state of the relay variables in
which the loop is still running and the host-identity matcher is at 0 (whatever the password
matcher state, and whether or not the secret was sent), if the chunks `A` read next contain
the host-identity literal in their concatenation, however it is split across them, then
whatever chunks `B` would follow, the relay returns the state it reaches on `A` alone, with the
termination flag set and one kill request sent; it has read at most the chunks of `A`. -/
theorem relay_host_prompt_terminates (prompt secret : List Byte) (st0 : Relay)
    (A B : List (List Byte)) (hrun : st0.terminate = false) (h0 : st0.hostAuthState = 0)
    (hA : occursIn hostPrompt A.flatten) :
    ∃ st k, relayLoop prompt secret st0 (A ++ B) = some st ∧
      relayLoop prompt secret st0 A = some st ∧
      st.terminate = true ∧ st.kills = st0.kills + 1 ∧
      k ≤ A.length ∧ st.ptyReads = st0.ptyReads ++ A.take k := by
  have hadv : advance hostPrompt st0.hostAuthState A.flatten = hostPrompt.length := by
    rw [h0]
    exact advance_of_occurs _ firstByteUnique_hostPrompt 0 (Nat.zero_le _) _ hA
  have hlt : st0.hostAuthState < hostPrompt.length := by
    rw [h0]; decide
  obtain ⟨st, e1, e2, e3, e4⟩ := relayLoop_host prompt secret A st0 hrun hlt hadv B
  obtain ⟨k, hk, hr⟩ := relayLoop_reads prompt secret A st0 st e2
  exact ⟨st, k, e1, e2, e3, e4, hk, hr⟩

/-- Witness for C3: the literal split across two chunks, a third chunk following, from the
initial relay variables. -/
theorem relay_host_prompt_terminates_witness :
    occursIn hostPrompt [goBytes "The authen", goBytes "ticity of host example.org"].flatten ∧
    ∃ st k, relayLoop (goBytes "password") (goBytes "hunter2") Relay.init
        ([goBytes "The authen", goBytes "ticity of host example.org"]
          ++ [goBytes "password: "]) = some st ∧
      relayLoop (goBytes "password") (goBytes "hunter2") Relay.init
        [goBytes "The authen", goBytes "ticity of host example.org"] = some st ∧
      st.terminate = true ∧ st.kills = Relay.init.kills + 1 ∧
      k ≤ [goBytes "The authen", goBytes "ticity of host example.org"].length ∧
      st.ptyReads = Relay.init.ptyReads
        ++ [goBytes "The authen", goBytes "ticity of host example.org"].take k :=
  ⟨⟨[], goBytes "example.org", by decide⟩,
    relay_host_prompt_terminates (goBytes "password") (goBytes "hunter2") Relay.init
      [goBytes "The authen", goBytes "ticity of host example.org"] [goBytes "password: "]
      rfl rfl ⟨[], goBytes "example.org", by decide⟩⟩

/-- C4 fails on the code: for a child ended by `SIGKILL` the wait error is an
`*exec.ExitError`, so `main` calls `os.Exit(status.ExitStatus())` with the value `-1`, and the
exit status observed is 255, not 1. -/
theorem exitCode_killed_child :
    exitCode (WaitResult.signaled SIGKILL) = -1 ∧
    observedStatus (exitCode (WaitResult.signaled SIGKILL)) = 255 ∧
    observedStatus (exitCode (WaitResult.signaled SIGKILL)) ≠ 1 := by
  decide

/-- C5 fails on the code: with pattern "password" and the chunks "password: ", "password: "
the relay reads both chunks, detects the wrong password on the second and breaks before the
write to standard output, so standard output holds the first chunk only; and when the single
chunk read is the host-identity literal, the relay breaks with nothing written to standard
output. -/
theorem relay_drops_terminating_chunk :
    (relayLoop (goBytes "password") (goBytes "hunter2") Relay.init
        [goBytes "password: ", goBytes "password: "]
      = some ⟨8, 0, true, true, [goBytes "password: ", goBytes "password: "],
          [goBytes "hunter2\n"], 1, [goBytes "password: "]⟩ ∧
      [goBytes "password: "].flatten
        ≠ [goBytes "password: ", goBytes "password: "].flatten) ∧
    (relayLoop (goBytes "password") (goBytes "hunter2") Relay.init
        [goBytes "The authenticity of host "]
      = some ⟨0, 25, false, true, [goBytes "The authenticity of host "], [], 1, []⟩ ∧
      ([] : List (List Byte)).flatten ≠ [goBytes "The authenticity of host "].flatten) := by
  decide

/-- C6, as stated, fails. The pattern "aab" is non-empty and has no self-overlap, and the
stream "aaab" contains it, yet feeding the stream from state 0, as one chunk or split into
"aa" and "ab", ends in state 0 and not in the completion state 3. -/
theorem feed_misses_border_free_pattern :
    goBytes "aab" ≠ [] ∧
    (∀ k, 0 < k → k < (goBytes "aab").length →
      (goBytes "aab").take k ≠ (goBytes "aab").drop ((goBytes "aab").length - k)) ∧
    occursIn (goBytes "aab") (goBytes "aaab") ∧
    feed (goBytes "aab") 0 [goBytes "aaab"] = some 0 ∧
    [goBytes "aa", goBytes "ab"].flatten = goBytes "aaab" ∧
    feed (goBytes "aab") 0 [goBytes "aa", goBytes "ab"] = some 0 ∧
    (goBytes "aab").length = 3 := by
  refine ⟨by decide, ?_, ⟨goBytes "a", [], by decide⟩, by decide, by decide, by decide,
    by decide⟩
  intro k h1 h2
  have h3 : k < 3 := h2
  interval_cases k <;> decide

/-- C6, amended: for every non-empty pattern `P` whose first byte occurs at no other position
of `P`, and every byte stream `S` that contains `P` as a contiguous substring, split into
chunks at arbitrary boundaries, feeding the chunks in order through `matchString` from state 0
returns the completion state `len(P)`. -/
theorem feed_reaches_completion (P S : List Byte) (chunks : List (List Byte))
    (hP : FirstByteUnique P) (hS : occursIn P S) (hsplit : chunks.flatten = S) :
    feed P 0 chunks = some P.length := by
  rw [feed_eq, hsplit, advance_of_occurs P hP 0 (Nat.zero_le _) S hS]

/-- Witness for C6 amended: pattern "password" in "login: password: ", cut inside the
pattern. -/
theorem feed_reaches_completion_witness :
    FirstByteUnique (goBytes "password") ∧
    occursIn (goBytes "password") (goBytes "login: password: ") ∧
    [goBytes "login: pass", goBytes "word: "].flatten = goBytes "login: password: " ∧
    feed (goBytes "password") 0 [goBytes "login: pass", goBytes "word: "]
      = some (goBytes "password").length :=
  ⟨⟨112, goBytes "assword", by decide, by decide⟩,
    ⟨goBytes "login: ", goBytes ": ", by decide⟩,
    by decide,
    feed_reaches_completion (goBytes "password") (goBytes "login: password: ")
      [goBytes "login: pass", goBytes "word: "]
      ⟨112, goBytes "assword", by decide, by decide⟩
      ⟨goBytes "login: ", goBytes ": ", by decide⟩ (by decide)⟩

/-- C7: for every pattern `P`, every chunk and every state `s` with `0 <= s <= len(P)`,
`matchString(P, chunk, s)` returns the left fold over the bytes of the chunk, starting from
`s`, of the per-byte rule of the specification. -/
theorem matchString_refines_fold (P chunk : List Byte) (s : Nat) (_hs : s ≤ P.length) :
    matchString P chunk s = some (List.foldl (advanceByte P) s chunk) :=
  matchString_eq P chunk s

/-- Witness for C7: pattern "password", chunk "pass", state 0. -/
theorem matchString_refines_fold_witness :
    0 ≤ (goBytes "password").length ∧
    matchString (goBytes "password") (goBytes "pass") 0
      = some (List.foldl (advanceByte (goBytes "password")) 0 (goBytes "pass")) :=
  ⟨by decide,
    matchString_refines_fold (goBytes "password") (goBytes "pass") 0 (by decide)⟩

/-- C8: for every pattern `P`, all byte strings `a` and `b` and every state `s`,
`matchString(P, a ++ b, s)` is `matchString(P, b, matchString(P, a, s))`; and for every
sequence of chunks, feeding the chunks one after the other returns the state that one call on
their concatenation returns, so the state reached does not depend on where the stream is
cut. -/
theorem matchString_chunk_independent (P a b : List Byte) (s : Nat)
    (chunks : List (List Byte)) :
    matchString P (a ++ b) s = (matchString P a s).bind (matchString P b) ∧
    feed P s chunks = matchString P chunks.flatten s := by
  refine ⟨?_, ?_⟩
  · simp only [matchString_eq, Option.some_bind, advance_append]
  · rw [feed_eq, matchString_eq]

/-- C9: for every pattern `P` (the empty one included), every buffer and every state `s` with
`0 <= s <= len(P)`, `matchString(P, buffer, s)` performs no out-of-range index (it returns)
and the state `r` it returns has `0 <= r <= len(P)`; and over any sequence of chunks the relay
returns with `passwordState` at most `len(prompt)` and `hostAuthState` at most the length of
the host-identity pattern. -/
theorem matchString_state_in_range (P buffer : List Byte) (s : Nat) (hs : s ≤ P.length)
    (secret : List Byte) (chunks : List (List Byte)) :
    (∃ r, matchString P buffer s = some r ∧ r ≤ P.length) ∧
    (∃ st, relayLoop P secret Relay.init chunks = some st ∧
      st.passwordState ≤ P.length ∧ st.hostAuthState ≤ hostPrompt.length) := by
  refine ⟨⟨_, matchString_eq P buffer s, advance_le P buffer s hs⟩, ?_⟩
  exact relayLoop_inv P secret
    (fun st => st.passwordState ≤ P.length ∧ st.hostAuthState ≤ hostPrompt.length)
    (fun st buf f st1 hI hb => relayBody_range P secret st st1 buf f hb hI.1 hI.2)
    chunks Relay.init ⟨Nat.zero_le _, Nat.zero_le _⟩

/-- Witness for C9: pattern "password" at state 3 on the buffer "sword: pass" (the loop body
runs and indexes both strings) with the relay run over the chunks "login: pass", "word: ",
"password: "; and the empty pattern at state 0. -/
theorem matchString_state_in_range_witness :
    (3 ≤ (goBytes "password").length ∧
      (∃ r, matchString (goBytes "password") (goBytes "sword: pass") 3 = some r ∧
        r ≤ (goBytes "password").length) ∧
      (∃ st, relayLoop (goBytes "password") (goBytes "hunter2") Relay.init
          [goBytes "login: pass", goBytes "word: ", goBytes "password: "] = some st ∧
        st.passwordState ≤ (goBytes "password").length ∧
        st.hostAuthState ≤ hostPrompt.length)) ∧
    (0 ≤ ([] : List Byte).length ∧
      (∃ r, matchString [] (goBytes "abc") 0 = some r ∧ r ≤ ([] : List Byte).length) ∧
      (∃ st, relayLoop [] (goBytes "hunter2") Relay.init [goBytes "abc"] = some st ∧
        st.passwordState ≤ ([] : List Byte).length ∧
        st.hostAuthState ≤ hostPrompt.length)) :=
  ⟨⟨by decide,
      matchString_state_in_range (goBytes "password") (goBytes "sword: pass") 3 (by decide)
        (goBytes "hunter2") [goBytes "login: pass", goBytes "word: ", goBytes "password: "]⟩,
    ⟨by decide,
      matchString_state_in_range [] (goBytes "abc") 0 (by decide) (goBytes "hunter2")
        [goBytes "abc"]⟩⟩

/-- C10: the default prompt "password" and the host-identity literal are non-empty with a
first byte that occurs at no other position; and for every such pattern `P` and every byte
string `S`, `matchString(P, S, 0)` returns `len(P)` if and only if `P` occurs in `S` as a
contiguous substring. -/
theorem matchString_exact_for_unique_first_byte :
    FirstByteUnique (goBytes "password") ∧ FirstByteUnique hostPrompt ∧
    ∀ P S : List Byte, FirstByteUnique P →
      (matchString P S 0 = some P.length ↔ occursIn P S) := by
  refine ⟨⟨112, goBytes "assword", by decide, by decide⟩,
    ⟨84, goBytes "he authenticity of host ", by decide, by decide⟩, ?_⟩
  intro P S hP
  rw [matchString_eq]
  constructor
  · intro h
    exact occurs_of_advance P S (Option.some.inj h)
  · intro h
    rw [advance_of_occurs P hP 0 (Nat.zero_le _) S h]

/-- Witness for C10: pattern "password" and the string "login: password: ". -/
theorem matchString_exact_for_unique_first_byte_witness :
    FirstByteUnique (goBytes "password") ∧
    (matchString (goBytes "password") (goBytes "login: password: ") 0
        = some (goBytes "password").length ↔
      occursIn (goBytes "password") (goBytes "login: password: ")) :=
  ⟨⟨112, goBytes "assword", by decide, by decide⟩,
    matchString_exact_for_unique_first_byte.2.2 (goBytes "password")
      (goBytes "login: password: ") ⟨112, goBytes "assword", by decide, by decide⟩⟩

end Sshpass
